import Mathlib

/-!
# Waitlist tracker: shallow embedding of `script.js`

This file embeds the query/filter/search logic and the fetch-retry pipeline of
the browser-side waitlist viewer (`script.js`) and proves the specified
properties about them.

Modelling conventions:
* JS strings are Lean `String`s; character-level operations (lowercasing,
  substring containment, whitespace splitting) work on `String.data`
  (`List Char`).  `Char.toLower` matches the ASCII case mapping the proofs
  rely on.
* JS arrays are Lean `List`s.  `Array.prototype.sort` (stable since ES2019,
  in-place) is modelled by the structurally recursive stable sort `jsSortBy`;
  in-place mutation through aliased arrays is made explicit by returning an
  updated document where the source mutates one (see
  `performSearchAvailable`).
* A JS object field that may be absent or `null` is an `Option`; JS object
  key/value maps preserve insertion order and are modelled as association
  lists (`List (String × _)`), keys unique.
* The regular expressions of `CLASS_CATEGORIES` consist solely of anchored
  literal runs and `\s*` gaps; they are embedded as `List PatAtom` and
  matched by `matchAtoms` (greedy), which is proved equivalent to the
  backtracking regex semantics `Matches` for all patterns in the table
  (`matchAtoms_iff_matches`, `classCategoriesPatOk`).
-/

namespace WaitlistTracker

/-- The whitespace characters recognised by the regex class `\s` and by
`String.prototype.trim`, restricted to the ASCII range that the data and the
spec exercise. -/
def jsIsSpace (c : Char) : Bool :=
  c == ' ' || c == '\t' || c == '\n' || c == '\r' || c == '\x0b' || c == '\x0c'

/-- `String.prototype.toLowerCase`, ASCII fragment (`Char.toLower` lowercases
exactly the letters A–Z). -/
def lowerStr (s : List Char) : List Char := s.map Char.toLower

/-- `String.prototype.trim` (drop leading and trailing whitespace). -/
def jsTrim (s : List Char) : List Char :=
  ((s.dropWhile jsIsSpace).reverse.dropWhile jsIsSpace).reverse

/-- `query.split(/\s+/).filter(word => word.length > 0)`: the maximal nonempty
runs of non-whitespace characters, in order. `acc` holds the (reversed)
current run. -/
def splitWsAux : List Char → List Char → List (List Char)
  | [], acc => if acc.isEmpty then [] else [acc.reverse]
  | c :: cs, acc =>
    if jsIsSpace c then
      if acc.isEmpty then splitWsAux cs []
      else acc.reverse :: splitWsAux cs []
    else splitWsAux cs (c :: acc)

def splitWs (s : List Char) : List (List Char) := splitWsAux s []

/-- `String.prototype.includes`: `needle` occurs as a contiguous substring of
`hay` (the empty needle always occurs). -/
def containsSub : List Char → List Char → Bool
  | [], needle => needle.isEmpty
  | hay@(_ :: t), needle => needle.isPrefixOf hay || containsSub t needle

/-- `nameMatchesQuery` (script.js 340-356): split the query on whitespace
discarding empty tokens; zero tokens never match; one token matches iff the
lowercased name contains it; several tokens match iff the lowercased name
contains every one of them. -/
def nameMatchesQuery (name query : String) : Bool :=
  let nameLower := lowerStr name.data
  match splitWs query.data with
  | [] => false
  | [w] => containsSub nameLower w
  | ws => ws.all fun w => containsSub nameLower w

/-- The query normalisation `performSearch` applies to the raw text box value:
`value.trim().toLowerCase()` (script.js 359). -/
def normalizeQuery (s : String) : String :=
  ⟨lowerStr (jsTrim s.data)⟩

/-! ## Basic lemmas about the string primitives -/

theorem isPrefixOf_mem {l l' : List Char} (h : l.isPrefixOf l' = true) :
    ∀ c ∈ l, c ∈ l' := by
  induction l generalizing l' with
  | nil => intro c hc; cases hc
  | cons a as ih =>
    cases l' with
    | nil => simp [List.isPrefixOf] at h
    | cons b bs =>
      simp only [List.isPrefixOf, Bool.and_eq_true, beq_iff_eq] at h
      intro c hc
      rw [List.mem_cons] at hc
      rcases hc with rfl | hc
      · rw [h.1]; exact List.mem_cons_self _ _
      · exact List.mem_cons_of_mem _ (ih h.2 c hc)

theorem containsSub_mem {hay needle : List Char} (h : containsSub hay needle = true) :
    ∀ c ∈ needle, c ∈ hay := by
  induction hay with
  | nil =>
    simp only [containsSub, List.isEmpty_iff] at h
    subst h; intro c hc; cases hc
  | cons a t ih =>
    simp only [containsSub, Bool.or_eq_true] at h
    rcases h with h | h
    · exact isPrefixOf_mem h
    · intro c hc; exact List.mem_cons_of_mem _ (ih h c hc)

theorem char_isUpper_iff (c : Char) : c.isUpper = true ↔ 65 ≤ c.toNat ∧ c.toNat ≤ 90 := by
  simp only [Char.isUpper, Bool.and_eq_true, decide_eq_true_eq, UInt32.le_def, BitVec.le_def]
  exact Iff.rfl

/-- `Char.toLower` never produces an ASCII uppercase letter. -/
theorem toLower_not_upper (c : Char) : (Char.toLower c).isUpper = false := by
  rw [Bool.eq_false_iff]
  intro hu
  rw [char_isUpper_iff] at hu
  unfold Char.toLower at hu
  by_cases h : c.toNat ≥ 65 ∧ c.toNat ≤ 90
  · rw [if_pos h] at hu
    have hv : (c.toNat + 32).isValidChar := Or.inl (by omega)
    have hofn : (Char.ofNat (c.toNat + 32)).toNat = c.toNat + 32 := by
      simp only [Char.ofNat, hv, dif_pos]
      rfl
    rw [hofn] at hu
    omega
  · rw [if_neg h] at hu
    exact h ⟨hu.1, hu.2⟩

theorem mem_lowerStr_not_upper {s : List Char} {c : Char}
    (h : c ∈ lowerStr s) : c.isUpper = false := by
  simp only [lowerStr, List.mem_map] at h
  obtain ⟨d, _, rfl⟩ := h
  exact toLower_not_upper d

theorem nameMatchesQuery_iff (name query : String) :
    nameMatchesQuery name query = true ↔
      (splitWs query.data ≠ [] ∧
        ∀ w ∈ splitWs query.data, containsSub (lowerStr name.data) w = true) := by
  unfold nameMatchesQuery
  cases h : splitWs query.data with
  | nil => simp
  | cons w ws =>
    cases ws with
    | nil => simp
    | cons w' ws' => simp [List.all_eq_true]

/-! ## A stable sort modelling `Array.prototype.sort`

`Array.prototype.sort(cmp)` (stable per ES2019) with a consistent comparator
is modelled by a stable insertion sort: `le a b` means `cmp(a, b) <= 0`
("a may come before b").  `insertStable` places the incoming element, which
occurred *earlier* in the input than everything already sorted, before the
first element that does not strictly precede it, so ties keep input order. -/

def insertStable (le : α → α → Bool) (x : α) : List α → List α
  | [] => [x]
  | y :: ys => if le y x && !le x y then y :: insertStable le x ys else x :: y :: ys

def jsSortBy (le : α → α → Bool) : List α → List α
  | [] => []
  | x :: xs => insertStable le x (jsSortBy le xs)

theorem insertStable_perm (le : α → α → Bool) (x : α) (l : List α) :
    (insertStable le x l).Perm (x :: l) := by
  induction l with
  | nil => exact List.Perm.refl _
  | cons y ys ih =>
    unfold insertStable
    split
    · exact ((ih.cons y).trans (List.Perm.swap x y ys))
    · exact List.Perm.refl _

theorem jsSortBy_perm (le : α → α → Bool) (l : List α) :
    (jsSortBy le l).Perm l := by
  induction l with
  | nil => exact List.Perm.refl _
  | cons x xs ih =>
    exact (insertStable_perm le x (jsSortBy le xs)).trans (ih.cons x)

theorem mem_insertStable {le : α → α → Bool} {x a : α} {l : List α} :
    a ∈ insertStable le x l ↔ a = x ∨ a ∈ l := by
  rw [(insertStable_perm le x l).mem_iff, List.mem_cons]

theorem mem_jsSortBy {le : α → α → Bool} {a : α} {l : List α} :
    a ∈ jsSortBy le l ↔ a ∈ l := (jsSortBy_perm le l).mem_iff

theorem insertStable_pairwise {le : α → α → Bool}
    (htot : ∀ a b, le a b = true ∨ le b a = true)
    (htrans : ∀ a b c, le a b = true → le b c = true → le a c = true)
    {x : α} {l : List α} (hl : l.Pairwise fun a b => le a b = true) :
    (insertStable le x l).Pairwise fun a b => le a b = true := by
  induction l with
  | nil => simp [insertStable]
  | cons y ys ih =>
    rw [List.pairwise_cons] at hl
    unfold insertStable
    split
    · next hcond =>
      rw [Bool.and_eq_true, Bool.not_eq_true'] at hcond
      rw [List.pairwise_cons]
      refine ⟨?_, ih hl.2⟩
      intro b hb
      rw [mem_insertStable] at hb
      rcases hb with rfl | hb
      · exact hcond.1
      · exact hl.1 b hb
    · next hcond =>
      rw [Bool.and_eq_true, Bool.not_eq_true'] at hcond
      push_neg at hcond
      rw [List.pairwise_cons]
      constructor
      · intro b hb
        rw [List.mem_cons] at hb
        have hxy : le x y = true := by
          rcases htot x y with h | h
          · exact h
          · by_cases hxy : le x y = true
            · exact hxy
            · exact absurd (hcond h) (by simp [hxy])
        rcases hb with rfl | hb
        · exact hxy
        · exact htrans x y b hxy (hl.1 b hb)
      · exact List.Pairwise.cons hl.1 hl.2

theorem jsSortBy_pairwise {le : α → α → Bool}
    (htot : ∀ a b, le a b = true ∨ le b a = true)
    (htrans : ∀ a b c, le a b = true → le b c = true → le a c = true)
    (l : List α) :
    (jsSortBy le l).Pairwise fun a b => le a b = true := by
  induction l with
  | nil => simp [jsSortBy]
  | cons x xs ih => exact insertStable_pairwise htot htrans ih

theorem sublist_insertStable (le : α → α → Bool) (x : α) (l : List α) :
    l.Sublist (insertStable le x l) := by
  induction l with
  | nil => simp [insertStable]
  | cons y ys ih =>
    unfold insertStable
    split
    · exact ih.cons₂ y
    · exact (List.sublist_cons_self x (y :: ys))

theorem insertStable_pair {le : α → α → Bool} {x b : α} {l : List α}
    (hxb : le x b = true) (hb : b ∈ l) :
    [x, b].Sublist (insertStable le x l) := by
  induction l with
  | nil => cases hb
  | cons y ys ih =>
    unfold insertStable
    split
    · next hcond =>
      rw [Bool.and_eq_true, Bool.not_eq_true'] at hcond
      rw [List.mem_cons] at hb
      rcases hb with rfl | hb
      · exact absurd hxb (by simp [hcond.2])
      · exact (ih hb).cons y
    · next hcond =>
      refine List.Sublist.cons₂ x ?_
      exact List.singleton_sublist.mpr hb

/-- Stability of the sort: if `a` occurs before `b` in the input and the
comparator allows `a` to precede `b` (in particular on ties), then `a` still
occurs before `b` in the output. -/
theorem jsSortBy_stable {le : α → α → Bool} {a b : α} {l : List α}
    (hab : le a b = true) (h : [a, b].Sublist l) :
    [a, b].Sublist (jsSortBy le l) := by
  induction l with
  | nil => cases h
  | cons x xs ih =>
    show [a, b].Sublist (insertStable le x (jsSortBy le xs))
    cases h with
    | cons _ h' => exact (ih h').trans (sublist_insertStable le x _)
    | cons₂ _ h' =>
      exact insertStable_pair hab (mem_jsSortBy.mpr (List.singleton_sublist.mp h'))

/-! ## Category matchers

Every regex in `CLASS_CATEGORIES` is of the form `/^L₀ \s* L₁ \s* … /i`:
an anchored, case-insensitive sequence of literal runs separated by `\s*`
gaps.  Such a pattern is embedded as a `List PatAtom` (pattern literals
stored lowercased, since the `i` flag compares case-insensitively and the
matcher lowercases each subject character).  `Matches` is the backtracking
regex semantics; `matchAtoms` is the executable greedy matcher, equivalent
to `Matches` whenever no `\s*` is immediately followed by an atom that can
consume whitespace (`patOk`), which holds for every pattern in the table. -/

inductive PatAtom where
  | lit (c : Char)
  | wsStar
deriving Repr, DecidableEq

/-- Anchored match of a pattern against (a prefix of) the subject, with the
exact nondeterministic semantics of `\s*`. -/
inductive Matches : List PatAtom → List Char → Prop
  | nil (s : List Char) : Matches [] s
  | lit (c x : Char) (ps : List PatAtom) (xs : List Char) :
      Char.toLower x = c → Matches ps xs → Matches (.lit c :: ps) (x :: xs)
  | wsZero (ps : List PatAtom) (xs : List Char) :
      Matches ps xs → Matches (.wsStar :: ps) xs
  | wsMore (ps : List PatAtom) (x : Char) (xs : List Char) :
      jsIsSpace x = true → Matches (.wsStar :: ps) xs → Matches (.wsStar :: ps) (x :: xs)

/-- Greedy executable matcher: `\s*` consumes the maximal run of whitespace. -/
def matchAtoms : List PatAtom → List Char → Bool
  | [], _ => true
  | .lit _ :: _, [] => false
  | .lit c :: ps, x :: xs => Char.toLower x == c && matchAtoms ps xs
  | .wsStar :: ps, xs => matchAtoms ps (xs.dropWhile jsIsSpace)

/-- No `\s*` is immediately followed by an atom that can itself consume a
whitespace character (another `\s*`, or a literal whose lowercased form is
whitespace).  Under this condition greedy matching is complete. -/
def patOk : List PatAtom → Bool
  | [] => true
  | .lit _ :: ps => patOk ps
  | [.wsStar] => true
  | .wsStar :: .lit c :: ps => !jsIsSpace c && patOk (.lit c :: ps)
  | .wsStar :: .wsStar :: _ => false

theorem matches_wsStar_of_dropWhile {ps : List PatAtom} {s : List Char}
    (h : Matches ps (s.dropWhile jsIsSpace)) : Matches (.wsStar :: ps) s := by
  induction s with
  | nil => exact .wsZero ps [] h
  | cons x t ih =>
    by_cases hx : jsIsSpace x = true
    · rw [List.dropWhile_cons_of_pos hx] at h
      exact .wsMore ps x t hx (ih h)
    · rw [List.dropWhile_cons_of_neg hx] at h
      exact .wsZero _ _ h

theorem matches_of_matchAtoms {ps : List PatAtom} {s : List Char}
    (h : matchAtoms ps s = true) : Matches ps s := by
  induction ps generalizing s with
  | nil => exact .nil s
  | cons p ps ih =>
    cases p with
    | lit c =>
      cases s with
      | nil => simp [matchAtoms] at h
      | cons x xs =>
        simp only [matchAtoms, Bool.and_eq_true, beq_iff_eq] at h
        exact .lit c x ps xs h.1 (ih h.2)
    | wsStar =>
      simp only [matchAtoms] at h
      exact matches_wsStar_of_dropWhile (ih h)

/-- A whitespace character is unchanged by `Char.toLower`, so a literal atom
whose (lowercased) character is not whitespace can never consume a whitespace
subject character. -/
theorem space_not_lowered {x c : Char} (hlow : Char.toLower x = c)
    (hc : jsIsSpace c = false) : jsIsSpace x = false := by
  by_contra hxne
  rw [Bool.not_eq_false] at hxne
  have hfix : Char.toLower x = x := by
    have hxr : ¬ (x.toNat ≥ 65 ∧ x.toNat ≤ 90) := by
      simp only [jsIsSpace, Bool.or_eq_true, beq_iff_eq, or_assoc] at hxne
      rcases hxne with h | h | h | h | h | h <;> subst h <;> decide
    unfold Char.toLower
    rw [if_neg hxr]
  rw [hfix] at hlow
  rw [hlow] at hxne
  rw [hxne] at hc
  cases hc

theorem dropWhile_jsIsSpace_idem (s : List Char) :
    (s.dropWhile jsIsSpace).dropWhile jsIsSpace = s.dropWhile jsIsSpace := by
  induction s with
  | nil => rfl
  | cons x t ih =>
    by_cases hx : jsIsSpace x = true
    · rw [List.dropWhile_cons_of_pos hx, ih]
    · rw [List.dropWhile_cons_of_neg hx, List.dropWhile_cons_of_neg hx]

/-- The head atom of `ps` cannot consume whitespace: either `ps` is empty, it
starts with another `\s*` (which may consume zero characters), or it starts
with a non-whitespace literal. -/
def headNonWs : List PatAtom → Bool
  | [] => true
  | .lit c :: _ => !jsIsSpace c
  | .wsStar :: _ => true

theorem matchAtoms_dropWhile {ps : List PatAtom} {s : List Char}
    (hhd : headNonWs ps = true) (h : matchAtoms ps s = true) :
    matchAtoms ps (s.dropWhile jsIsSpace) = true := by
  cases ps with
  | nil => simp [matchAtoms]
  | cons p ps' =>
    cases p with
    | lit c =>
      cases s with
      | nil => simp [matchAtoms] at h
      | cons x xs =>
        have hx : jsIsSpace x = false := by
          simp only [matchAtoms, Bool.and_eq_true, beq_iff_eq] at h
          simp only [headNonWs, Bool.not_eq_true'] at hhd
          exact space_not_lowered h.1 hhd
        rw [List.dropWhile_cons_of_neg (by rw [hx]; exact Bool.false_ne_true)]
        exact h
    | wsStar =>
      simp only [matchAtoms] at h ⊢
      rw [dropWhile_jsIsSpace_idem]
      exact h

theorem patOk_wsStar {ps : List PatAtom} (hok : patOk (.wsStar :: ps) = true) :
    patOk ps = true ∧ headNonWs ps = true := by
  cases ps with
  | nil => exact ⟨rfl, rfl⟩
  | cons p ps' =>
    cases p with
    | lit c =>
      simp only [patOk, Bool.and_eq_true, Bool.not_eq_true'] at hok
      exact ⟨hok.2, by simp [headNonWs, hok.1]⟩
    | wsStar => cases hok

theorem matchAtoms_of_matches {ps : List PatAtom} {s : List Char}
    (hok : patOk ps = true) (h : Matches ps s) : matchAtoms ps s = true := by
  induction h with
  | nil s => rfl
  | lit c x ps xs hlow _ ih =>
    have hok' : patOk ps = true := hok
    simp only [matchAtoms, Bool.and_eq_true, beq_iff_eq]
    exact ⟨hlow, ih hok'⟩
  | wsZero ps xs _ ih =>
    obtain ⟨hok', hhd⟩ := patOk_wsStar hok
    simp only [matchAtoms]
    exact matchAtoms_dropWhile hhd (ih hok')
  | wsMore ps x xs hx _ ih =>
    simp only [matchAtoms] at ih ⊢
    rw [List.dropWhile_cons_of_pos hx]
    exact ih hok

/-- For the well-formed patterns of the category table, the greedy matcher
computes exactly the regex semantics. -/
theorem matchAtoms_iff_matches {ps : List PatAtom} (hok : patOk ps = true)
    (s : List Char) : matchAtoms ps s = true ↔ Matches ps s :=
  ⟨matches_of_matchAtoms, matchAtoms_of_matches hok⟩

/-! ## Data model (script.js / data schema) -/

/-- One waitlist row `{ position, name }`.  `name` is `none` when the JSON
field is absent or `null` (both falsy in the guard `entry.name && …`); the
empty string is falsy as well and is handled at the use site. -/
structure WaitEntry where
  position : Int
  name : Option String
deriving Repr, DecidableEq

/-- One availability row `{ name, open_spots, classId?, waitlist? }`. -/
structure OpeningEntry where
  name : String
  open_spots : Option Int
  classId : Option String
  waitlist : Option Int
deriving Repr, DecidableEq

/-- The fetched snapshot.  Every top-level field may be absent (or `null`,
equally falsy): `Option`.  `waitlists` is a key-ordered JS object, hence an
association list with unique keys. -/
structure WaitlistDoc where
  last_updated : Option String
  waitlists : Option (List (String × List WaitEntry))
  available : Option (List OpeningEntry)
  classes_with_openings : Option (List OpeningEntry)
  camps_with_openings : Option (List OpeningEntry)
  camps_with_waitlist : Option (List OpeningEntry)
deriving Repr, DecidableEq

/-- One entry of `CLASS_CATEGORIES`: `{ key, match, label }` with the regex
embedded as a pattern-atom list (see `Matches`). -/
structure Category where
  key : String
  pat : List PatAtom
  label : String
deriving Repr, DecidableEq

/-- A run of literal atoms (characters stored lowercased, as the matcher
compares `Char.toLower x == c`). -/
def litsOf (s : String) : List PatAtom := s.data.map PatAtom.lit

/-- `CLASS_CATEGORIES` (script.js 16-31), in source order.  Each regex
`/^…/i` is the corresponding atom list; e.g. `/^BEGINNER\s*\//i` becomes the
literals of `"beginner"`, a `\s*` gap, and the literal `/`. -/
def CLASS_CATEGORIES : List Category := [
  ⟨"2s", litsOf "2s" ++ [.wsStar] ++ litsOf "-", "2s (Talented 2s)"⟩,
  ⟨"3/4s", litsOf "3/4s" ++ [.wsStar] ++ litsOf "-", "3/4s (Tremendous 3s/Fabulous 4s)"⟩,
  ⟨"BEGINNER", litsOf "beginner" ++ [.wsStar] ++ litsOf "/", "Beginner"⟩,
  ⟨"ADVANCED BEGINNER", litsOf "advanced beginner" ++ [.wsStar] ++ litsOf "/",
    "Advanced Beginner"⟩,
  ⟨"INTERMEDIATE", litsOf "intermediate" ++ [.wsStar] ++ litsOf "/", "Intermediate"⟩,
  ⟨"ADVANCED", litsOf "advanced" ++ [.wsStar] ++ litsOf "/", "Advanced"⟩,
  ⟨"MASTER", litsOf "master" ++ [.wsStar] ++ litsOf "/", "Master"⟩,
  ⟨"BOYS BEGINNER", litsOf "boys beginner" ++ [.wsStar] ++ litsOf "/", "Boys Beginner"⟩,
  ⟨"HOME SCHOOL", litsOf "home school" ++ [.wsStar] ++ litsOf "/", "Home School"⟩,
  ⟨"NINJA ZONE WHITE", litsOf "ninja zone white" ++ [.wsStar] ++ litsOf "/",
    "Ninja Zone White"⟩,
  ⟨"NINJA ZONE YELLOW", litsOf "ninja zone yellow", "Ninja Zone Yellow/Green"⟩,
  ⟨"NZ - LIL NINJA", litsOf "nz" ++ [.wsStar] ++ litsOf "-" ++ [.wsStar] ++ litsOf "lil ninja",
    "NZ - Lil Ninja"⟩,
  ⟨"REC TEAM", litsOf "rec team", "Rec Team"⟩,
  ⟨"BEGINNER / ADVANCED BEGINNER",
    litsOf "beginner" ++ [.wsStar] ++ litsOf "/" ++ [.wsStar] ++ litsOf "advanced beginner",
    "Beginner/Adv Beginner Combo"⟩
]

/-- Every pattern of the table is well formed, so the greedy matcher agrees
with the regex semantics on all of them (`matchAtoms_iff_matches`). -/
theorem classCategoriesPatOk : ∀ cat ∈ CLASS_CATEGORIES, patOk cat.pat = true := by
  decide

/-- `getClassCategory` (script.js 123-133): stable-sort a copy of the table by
descending key length, return the first entry whose regex matches. -/
def getClassCategory (className : String) : Option Category :=
  let sortedCategories :=
    jsSortBy (fun a b => decide (b.key.length ≤ a.key.length)) CLASS_CATEGORIES
  sortedCategories.find? fun category => matchAtoms category.pat className.data

/-- `Object.keys` of the `waitlists` object: the keys in insertion order. -/
def objectKeys (w : List (String × List WaitEntry)) : List String := w.map Prod.fst

/-- `waitlistData.waitlists[className]?.length || 0`. -/
def waitCount (w : List (String × List WaitEntry)) (className : String) : Nat :=
  ((w.lookup className).getD []).length

/-- `getFilteredClasses` (script.js 188-204). -/
def getFilteredClasses (doc : WaitlistDoc) (currentFilter : String) : List String :=
  match doc.waitlists with
  | none => []
  | some w =>
    let allClasses := objectKeys w
    if currentFilter = "" then allClasses
    else
      match CLASS_CATEGORIES.find? fun cat => cat.key == currentFilter with
      | none => allClasses
      | some filterCategory =>
        allClasses.filter fun className => matchAtoms filterCategory.pat className.data

/-- `getFilteredAvailableClasses` (script.js 318-334). -/
def getFilteredAvailableClasses (doc : WaitlistDoc) (currentFilter : String) :
    List OpeningEntry :=
  match doc.available with
  | none => []
  | some available =>
    if currentFilter = "" then available
    else
      match CLASS_CATEGORIES.find? fun cat => cat.key == currentFilter with
      | none => available
      | some filterCategory =>
        available.filter fun cls => matchAtoms filterCategory.pat cls.name.data

/-- In the source, `getFilteredAvailableClasses` returns the document's own
`available` array — the same heap object, not a copy — exactly when
`waitlistData.available` exists and the filter is empty or names no category
(`return available;` at script.js 324 and 330).  Otherwise
`Array.prototype.filter` allocates a fresh array (script.js 333), and when
`available` is missing a fresh `[]` is returned (script.js 319). -/
def filteredAvailableAliased (doc : WaitlistDoc) (currentFilter : String) : Bool :=
  doc.available.isSome &&
    (currentFilter == "" ||
      (CLASS_CATEGORIES.find? fun cat => cat.key == currentFilter).isNone)

/-! ## Result shapes and sorting -/

structure ClassResult where
  className : String
  waitingCount : Nat
deriving Repr, DecidableEq

structure StudentResult where
  className : String
  position : Int
  name : String
deriving Repr, DecidableEq

/-- The sort of `displayAvailableClasses` (script.js 538):
`(a, b) => (b.open_spots || 0) - (a.open_spots || 0)`, in place, stable. -/
def sortByOpenSpots (classes : List OpeningEntry) : List OpeningEntry :=
  jsSortBy (fun a b => decide (b.open_spots.getD 0 ≤ a.open_spots.getD 0)) classes

/-- The sort of `displayStudentResults` (script.js 484):
`(a, b) => a.position - b.position`, stable. -/
def sortStudents (students : List StudentResult) : List StudentResult :=
  jsSortBy (fun a b => decide (a.position ≤ b.position)) students

/-- `displayResults` (script.js 419-466): sort the class names by descending
waitlist size (stable) and emit one card per class with its count. -/
def displayResults (w : List (String × List WaitEntry)) (classNames : List String) :
    List ClassResult :=
  let sorted := jsSortBy (fun a b => decide (waitCount w b ≤ waitCount w a)) classNames
  sorted.map fun className => ⟨className, waitCount w className⟩

/-- The student-collection loop of `performSearch` (script.js 401-414): for
each filtered class, keep the entries whose `name` is truthy and matches the
query. -/
def matchingStudentsIn (w : List (String × List WaitEntry)) (classNames : List String)
    (query : String) : List StudentResult :=
  classNames.flatMap fun className =>
    ((w.lookup className).getD []).filterMap fun entry =>
      match entry.name with
      | none => none
      | some nm =>
        if nm != "" && nameMatchesQuery nm query then
          some ⟨className, entry.position, nm⟩
        else none

/-- What the waitlist view renders. -/
inductive SearchOutput where
  | classes (results : List ClassResult)
  | students (results : List StudentResult)
  | notLoaded
deriving Repr, DecidableEq

/-- The waitlist-view branch of `performSearch` (script.js 358-417), for an
already-normalised `query` (the source computes
`searchInput.value.trim().toLowerCase()`; see `normalizeQuery`).  Note that
`displayResults` sorts a fresh array (`Object.keys` or its `.filter`), so this
branch never mutates the document. -/
def performSearchWaitlist (doc : WaitlistDoc) (currentFilter query : String) :
    SearchOutput :=
  match doc.waitlists with
  | none => .notLoaded
  | some w =>
    let filteredClasses := getFilteredClasses doc currentFilter
    if query = "" then .classes (displayResults w filteredClasses)
    else .students (sortStudents (matchingStudentsIn w filteredClasses query))

/-- The available-view branch of `performSearch` (script.js 369-383) together
with the in-place sort of `displayAvailableClasses` (script.js 538).  The
first component is the document *after* the call: when the filtered array is
the document's own `available` array (`filteredAvailableAliased`) and the
query is empty, `classes.sort(…)` reorders `document.available` itself;
with a non-empty query the sorted array is the fresh result of `.filter`, so
the document is untouched. -/
def performSearchAvailable (doc : WaitlistDoc) (currentFilter query : String) :
    WaitlistDoc × List OpeningEntry :=
  let filteredAvailable := getFilteredAvailableClasses doc currentFilter
  if query = "" then
    let sorted := sortByOpenSpots filteredAvailable
    if filteredAvailableAliased doc currentFilter then
      ({ doc with available := some sorted }, sorted)
    else (doc, sorted)
  else
    let matching := filteredAvailable.filter fun cls =>
      containsSub (lowerStr cls.name.data) query.data
    (doc, sortByOpenSpots matching)

/-! ## Fetcher (`fetchWithRetry`, script.js 85-118) and `loadData` (206-259)

A transport maps the (1-based) attempt number to that attempt's outcome.
`ok body` is a 2xx response whose body parses to `body` (`none`: the body is
not valid JSON, or is JSON `null` — both flow into the same `catch` in
`loadData`).  Note that `fetchWithRetry` itself never looks at the body: the
retry loop covers only transport failures, timeouts and non-2xx statuses;
`response.json()` and the shape check run once, in `loadData`, after the
retry loop has already returned. -/

inductive AttemptOutcome where
  | netFail (isAbort : Bool)
  | httpFail (status : Nat)
  | ok (body : Option WaitlistDoc)
deriving Repr, DecidableEq

inductive FetchError where
  | timedOut
  | failed
deriving Repr, DecidableEq

deriving instance DecidableEq for Except

/-- Outcome of one `fetchWithRetry` call: the value returned or error thrown,
the number of attempts actually made, and the backoff delays (ms) awaited, in
order. -/
structure FetchRun where
  result : Except FetchError (Option WaitlistDoc)
  attempts : Nat
  delays : List Nat
deriving Repr, DecidableEq

/-- The loop body of `fetchWithRetry`, as a function of the current attempt
number and the remaining fuel (`retries - attempt + 1`); `fuel = 0` encodes a
loop that has exhausted `attempt <= retries` (for `retries = 0` the JS loop
body never runs and the function falls through; no claim exercises that). -/
def fetchAux (transport : Nat → AttemptOutcome) : Nat → Nat → FetchRun
  | _, 0 => ⟨.error .failed, 0, []⟩
  | attempt, fuel + 1 =>
    match transport attempt with
    | .ok body => ⟨.ok body, 1, []⟩
    | .netFail isAbort =>
      if fuel = 0 then ⟨.error (if isAbort then .timedOut else .failed), 1, []⟩
      else
        let rest := fetchAux transport (attempt + 1) fuel
        ⟨rest.result, rest.attempts + 1, 2 ^ (attempt - 1) * 1000 :: rest.delays⟩
    | .httpFail _ =>
      if fuel = 0 then ⟨.error .failed, 1, []⟩
      else
        let rest := fetchAux transport (attempt + 1) fuel
        ⟨rest.result, rest.attempts + 1, 2 ^ (attempt - 1) * 1000 :: rest.delays⟩

def fetchWithRetry (transport : Nat → AttemptOutcome) (retries : Nat) : FetchRun :=
  fetchAux transport 1 retries

/-- The shape validation of `loadData` (script.js 217):
`!waitlistData || (!waitlistData.waitlists && !waitlistData.available)`
throws `'Invalid data format'`; i.e. the body is accepted iff it parsed to an
object with a truthy `waitlists` or a truthy `available`. -/
def validateData (body : Option WaitlistDoc) : Bool :=
  match body with
  | none => false
  | some d => d.waitlists.isSome || d.available.isSome

inductive LoadOutcome where
  | loaded (doc : WaitlistDoc)
  | loadError (timedOut : Bool)
deriving Repr, DecidableEq

structure LoadRun where
  outcome : LoadOutcome
  attempts : Nat
  delays : List Nat
deriving Repr, DecidableEq

/-- `loadData` (script.js 206-259): one `fetchWithRetry` call, then JSON
parsing and the shape check, whose failures land in the surrounding `catch`
without any further attempt.  `loadError true` is the distinct
`'Request timed out'` message. -/
def loadData (transport : Nat → AttemptOutcome) (retries : Nat) : LoadRun :=
  let run := fetchWithRetry transport retries
  match run.result with
  | .error .timedOut => ⟨.loadError true, run.attempts, run.delays⟩
  | .error .failed => ⟨.loadError false, run.attempts, run.delays⟩
  | .ok body =>
    match body with
    | none => ⟨.loadError false, run.attempts, run.delays⟩
    | some d =>
      if d.waitlists.isSome || d.available.isSome then
        ⟨.loaded d, run.attempts, run.delays⟩
      else ⟨.loadError false, run.attempts, run.delays⟩

/-! ## Concrete documents and transports used by the closed statements -/

/-- `{ waitlists: { A: [{position:1,name:"Doe, Jane"}],
B: [{position:1,name:"Roe, Sam"},{position:2,name:"Roe, Sue"}] } }`
(the end-to-end scenario of the spec). -/
def docAB : WaitlistDoc :=
  ⟨none,
   some [("A", [⟨1, some "Doe, Jane"⟩]),
         ("B", [⟨1, some "Roe, Sam"⟩, ⟨2, some "Roe, Sue"⟩])],
   none, none, none, none⟩

/-- An availability snapshot whose `available` array is *not* already in
descending `open_spots` order. -/
def docAvail : WaitlistDoc :=
  ⟨none, none,
   some [⟨"KIDS CAMP A", some 1, none, none⟩, ⟨"KIDS CAMP B", some 2, none, none⟩],
   none, none, none⟩

/-- A parsed document carrying only `classes_with_openings` — per the wire
schema a valid document, but rejected by `loadData`'s shape check. -/
def docOnlyCWO : WaitlistDoc :=
  ⟨none, none, none, some [⟨"KIDS CAMP", some 5, none, none⟩], none, none⟩

/-- A document with none of the optional structures. -/
def docEmpty : WaitlistDoc := ⟨none, none, none, none, none, none⟩

/-- A waitlist containing rows whose `name` is absent or empty. -/
def docNameless : WaitlistDoc :=
  ⟨none,
   some [("A", [⟨1, none⟩, ⟨2, some ""⟩, ⟨3, some "Roe, Sue"⟩])],
   none, none, none, none⟩

/-- Transport whose first two attempts fail at the network level and whose
third attempt succeeds. -/
def twoFailTransport : Nat → AttemptOutcome :=
  fun attempt => if attempt ≤ 2 then .netFail false else .ok (some docAB)

/-- Transport that always answers 2xx with a body of invalid shape. -/
def invalidShapeTransport : Nat → AttemptOutcome := fun _ => .ok (some docEmpty)

/-- Transport that always answers 2xx with a body that is not valid JSON. -/
def invalidJsonTransport : Nat → AttemptOutcome := fun _ => .ok none

/-- Transport that always answers 2xx with `docOnlyCWO`. -/
def cwoTransport : Nat → AttemptOutcome := fun _ => .ok (some docOnlyCWO)

/-- Transport that always answers 2xx with `docAB`. -/
def okTransport : Nat → AttemptOutcome := fun _ => .ok (some docAB)

/-! ## Generic helper lemmas -/

theorem total_descNat (f : α → Nat) (a b : α) :
    decide (f b ≤ f a) = true ∨ decide (f a ≤ f b) = true := by
  simp only [decide_eq_true_eq]
  omega

theorem trans_descNat (f : α → Nat) (a b c : α) (h1 : decide (f b ≤ f a) = true)
    (h2 : decide (f c ≤ f b) = true) : decide (f c ≤ f a) = true := by
  simp only [decide_eq_true_eq] at *
  omega

theorem total_descInt (f : α → Int) (a b : α) :
    decide (f b ≤ f a) = true ∨ decide (f a ≤ f b) = true := by
  simp only [decide_eq_true_eq]
  omega

theorem trans_descInt (f : α → Int) (a b c : α) (h1 : decide (f b ≤ f a) = true)
    (h2 : decide (f c ≤ f b) = true) : decide (f c ≤ f a) = true := by
  simp only [decide_eq_true_eq] at *
  omega

/-- In a list pairwise-ordered by `R`, the first element satisfying `p` is
`R`-related to every other element satisfying `p`. -/
theorem find?_first_of_pairwise {p : α → Bool} {R : α → α → Prop} {l : List α} {a : α}
    (hp : l.Pairwise R) (h : l.find? p = some a) :
    ∀ b ∈ l, p b = true → b = a ∨ R a b := by
  induction l with
  | nil => cases h
  | cons x xs ih =>
    rw [List.pairwise_cons] at hp
    by_cases hx : p x = true
    · rw [List.find?_cons_of_pos _ hx] at h
      injection h with h
      subst h
      intro b hb _
      rw [List.mem_cons] at hb
      rcases hb with rfl | hb
      · exact Or.inl rfl
      · exact Or.inr (hp.1 b hb)
    · rw [List.find?_cons_of_neg _ hx] at h
      intro b hb hpb
      rw [List.mem_cons] at hb
      rcases hb with rfl | hb
      · exact absurd hpb hx
      · exact ih hp.2 h b hb hpb

theorem filterMap_filter_eq {p : α → Bool} {g : α → Option β}
    (h : ∀ e, p e = false → g e = none) (l : List α) :
    (l.filter p).filterMap g = l.filterMap g := by
  induction l with
  | nil => rfl
  | cons x t ih =>
    by_cases hx : p x = true
    · rw [List.filter_cons_of_pos hx, List.filterMap_cons, List.filterMap_cons, ih]
    · rw [List.filter_cons_of_neg hx, List.filterMap_cons,
        h x (Bool.not_eq_true _ ▸ hx), ih]

/-- Truthiness of `entry.name` in the guard `entry.name && …`. -/
def entryHasName (e : WaitEntry) : Bool :=
  match e.name with
  | none => false
  | some nm => nm != ""

/-- The document with all falsy-named waitlist rows removed. -/
def dropNameless (w : List (String × List WaitEntry)) :
    List (String × List WaitEntry) :=
  w.map fun kv => (kv.1, kv.2.filter entryHasName)

theorem lookup_dropNameless (w : List (String × List WaitEntry)) (k : String) :
    (dropNameless w).lookup k = (w.lookup k).map fun es => es.filter entryHasName := by
  induction w with
  | nil => rfl
  | cons kv t ih =>
    obtain ⟨k', v⟩ := kv
    unfold dropNameless at ih ⊢
    simp only [List.map_cons, List.lookup]
    by_cases h : k == k'
    · rw [h]
      rfl
    · rw [Bool.not_eq_true] at h
      rw [h]
      exact ih

theorem fetchAux_attempts_pos (transport : Nat → AttemptOutcome) (attempt fuel : Nat)
    (h : 1 ≤ fuel) : 1 ≤ (fetchAux transport attempt fuel).attempts := by
  cases fuel with
  | zero => omega
  | succ f =>
    unfold fetchAux
    cases transport attempt with
    | ok body => exact le_refl 1
    | netFail isAbort =>
      dsimp only
      by_cases hf : f = 0
      · rw [if_pos hf]
      · rw [if_neg hf]
        exact Nat.le_add_left 1 _
    | httpFail status =>
      dsimp only
      by_cases hf : f = 0
      · rw [if_pos hf]
      · rw [if_neg hf]
        exact Nat.le_add_left 1 _

/-- One retry step of the delays computation: prepending this attempt's
backoff to the remaining run's delays matches shifting the exponent index. -/
theorem delays_step (transport : Nat → AttemptOutcome) (f attempt n : Nat)
    (hA : 1 ≤ attempt)
    (hn : (fetchAux transport (attempt + 1) f).attempts = n + 1)
    (ihx : (fetchAux transport (attempt + 1) f).delays =
      (List.range ((fetchAux transport (attempt + 1) f).attempts - 1)).map
        fun k => 2 ^ (attempt + 1 - 1 + k) * 1000) :
    2 ^ (attempt - 1) * 1000 :: (fetchAux transport (attempt + 1) f).delays =
      (List.range ((fetchAux transport (attempt + 1) f).attempts + 1 - 1)).map
        fun k => 2 ^ (attempt - 1 + k) * 1000 := by
  rw [ihx, hn]
  simp only [Nat.add_sub_cancel]
  rw [List.range_succ_eq_map, List.map_cons, List.map_map]
  refine congrArg₂ List.cons (by rw [Nat.add_zero]) ?_
  apply List.map_congr_left
  intro k _
  show 2 ^ (attempt + 1 - 1 + k) * 1000 = 2 ^ (attempt - 1 + (k + 1)) * 1000
  have hexp : attempt + 1 - 1 + k = attempt - 1 + (k + 1) := by omega
  rw [hexp]

/-- The delays a `fetchAux` run starting at attempt number `attempt` records:
one entry `2^(attempt-1+k)·1000` for each non-final failed attempt, in order.
In particular there is no delay before the first attempt. -/
theorem fetchAux_delays (transport : Nat → AttemptOutcome) (fuel : Nat) :
    ∀ attempt, 1 ≤ attempt →
      (fetchAux transport attempt fuel).delays =
        (List.range ((fetchAux transport attempt fuel).attempts - 1)).map
          fun k => 2 ^ (attempt - 1 + k) * 1000 := by
  induction fuel with
  | zero => intro attempt _; rfl
  | succ f ih =>
    intro attempt hA
    unfold fetchAux
    cases transport attempt with
    | ok body => rfl
    | netFail isAbort =>
      dsimp only
      by_cases hf : f = 0
      · rw [if_pos hf]
        dsimp only
        rw [Nat.sub_self, List.range_zero, List.map_nil]
      · rw [if_neg hf]
        have hpos : 1 ≤ (fetchAux transport (attempt + 1) f).attempts :=
          fetchAux_attempts_pos transport (attempt + 1) f (by omega)
        exact delays_step transport f attempt
          ((fetchAux transport (attempt + 1) f).attempts - 1) hA
          (by omega) (ih (attempt + 1) (by omega))
    | httpFail status =>
      dsimp only
      by_cases hf : f = 0
      · rw [if_pos hf]
        dsimp only
        rw [Nat.sub_self, List.range_zero, List.map_nil]
      · rw [if_neg hf]
        have hpos : 1 ≤ (fetchAux transport (attempt + 1) f).attempts :=
          fetchAux_attempts_pos transport (attempt + 1) f (by omega)
        exact delays_step transport f attempt
          ((fetchAux transport (attempt + 1) f).attempts - 1) hA
          (by omega) (ih (attempt + 1) (by omega))

end WaitlistTracker


namespace WaitlistTracker

/-! ## Claim theorems -/

/-- **C1 (counterexample).** Searching the Available view with an empty query
and empty category filter does *not* leave the document unchanged: the
filtered array is the document's own `available` array, and
`displayAvailableClasses` sorts it in place, reordering `document.available`
from ascending to descending `open_spots`. -/
theorem C1_counterexample :
    (performSearchAvailable docAvail "" "").1 ≠ docAvail ∧
    docAvail.available =
      some [⟨"KIDS CAMP A", some 1, none, none⟩, ⟨"KIDS CAMP B", some 2, none, none⟩] ∧
    (performSearchAvailable docAvail "" "").1.available =
      some [⟨"KIDS CAMP B", some 2, none, none⟩, ⟨"KIDS CAMP A", some 1, none, none⟩] :=
  ⟨by decide, by decide, by decide⟩

theorem aliased_filtered_eq (doc : WaitlistDoc) (f : String)
    (hal : filteredAvailableAliased doc f = true) :
    getFilteredAvailableClasses doc f = doc.available.getD [] := by
  unfold filteredAvailableAliased at hal
  rw [Bool.and_eq_true] at hal
  obtain ⟨havail, hcond⟩ := hal
  obtain ⟨av, hav⟩ := Option.isSome_iff_exists.mp havail
  unfold getFilteredAvailableClasses
  rw [hav]
  dsimp only
  rw [Bool.or_eq_true] at hcond
  by_cases hf : f = ""
  · rw [if_pos hf]
    rfl
  · rw [if_neg hf]
    rcases hcond with hcond | hcond
    · exact absurd (by simpa using hcond) hf
    · rw [Option.isNone_iff_eq_none] at hcond
      rw [hcond]
      rfl

/-- **C1 (amended).** Filtering/search never mutates `waitlists` or any entry,
and the Available view is read-only whenever the query is non-empty or the
filter names a category of the table; but with an empty query and an empty or
unknown filter, the in-place sort replaces `document.available` by its sorted
permutation. -/
theorem C1_amended :
    (∀ doc f q, (performSearchAvailable doc f q).1.waitlists = doc.waitlists) ∧
    (∀ doc f q, q ≠ "" → (performSearchAvailable doc f q).1 = doc) ∧
    (∀ doc f q, f ≠ "" →
      (CLASS_CATEGORIES.find? fun cat => cat.key == f).isSome = true →
      (performSearchAvailable doc f q).1 = doc) ∧
    (∀ doc f, filteredAvailableAliased doc f = true →
      (performSearchAvailable doc f "").1.available =
        some (sortByOpenSpots (doc.available.getD [])) ∧
      (sortByOpenSpots (doc.available.getD [])).Perm (doc.available.getD [])) := by
  refine ⟨?_, ?_, ?_, ?_⟩
  · intro doc f q
    simp only [performSearchAvailable]
    by_cases hq : q = ""
    · rw [if_pos hq]
      by_cases hal : filteredAvailableAliased doc f = true
      · rw [if_pos hal]
      · rw [if_neg hal]
    · rw [if_neg hq]
  · intro doc f q hq
    simp only [performSearchAvailable]
    rw [if_neg hq]
  · intro doc f q hf hsome
    have hal : ¬ filteredAvailableAliased doc f = true := by
      unfold filteredAvailableAliased
      have h1 : (f == "") = false := beq_eq_false_iff_ne.mpr hf
      obtain ⟨cat0, hcat0⟩ := Option.isSome_iff_exists.mp hsome
      rw [h1, hcat0]
      simp
    simp only [performSearchAvailable]
    by_cases hq : q = ""
    · rw [if_pos hq, if_neg hal]
    · rw [if_neg hq]
  · intro doc f hal
    have hfa := aliased_filtered_eq doc f hal
    constructor
    · simp only [performSearchAvailable]
      rw [if_pos trivial, if_pos hal, hfa]
    · exact jsSortBy_perm _ _

theorem C1_witness : (performSearchAvailable docAvail "" "camp").1 = docAvail :=
  C1_amended.2.1 docAvail "" "camp" (by decide)

/-- **C2 (counterexample).** A 2xx response whose body lacks both `waitlists`
and `available` is *not* treated as a failed attempt of the retry loop: with
3 configured attempts (so attempts remain), the pipeline stops after a single
attempt, waits no backoff, and reports a load error. -/
theorem C2_counterexample :
    (loadData invalidShapeTransport 3).attempts = 1 ∧
    (loadData invalidShapeTransport 3).delays = [] ∧
    (loadData invalidShapeTransport 3).outcome = .loadError false ∧
    (1 : Nat) < 3 :=
  ⟨by decide, by decide, by decide, by decide⟩

/-- **C2 (amended).** The retry loop of `fetchWithRetry` covers only transport
failures, timeouts and non-2xx statuses; `loadData` adds no attempt of its
own, and a first-attempt 2xx response whose body is not valid JSON or has
invalid shape ends the whole load after exactly one attempt, with no backoff,
as a generic (non-timeout) load error. -/
theorem C2_amended :
    (∀ transport retries,
      (loadData transport retries).attempts = (fetchWithRetry transport retries).attempts ∧
      (loadData transport retries).delays = (fetchWithRetry transport retries).delays) ∧
    (∀ transport retries body, 1 ≤ retries → transport 1 = .ok body →
      validateData body = false →
      loadData transport retries = ⟨.loadError false, 1, []⟩) := by
  constructor
  · intro transport retries
    simp only [loadData]
    cases (fetchWithRetry transport retries).result with
    | error e => cases e <;> exact ⟨rfl, rfl⟩
    | ok body =>
      cases body with
      | none => exact ⟨rfl, rfl⟩
      | some d =>
        dsimp only
        by_cases hd : (d.waitlists.isSome || d.available.isSome) = true
        · rw [if_pos hd]
          exact ⟨rfl, rfl⟩
        · rw [if_neg hd]
          exact ⟨rfl, rfl⟩
  · intro transport retries body hret htr hval
    have hrun : fetchWithRetry transport retries = ⟨.ok body, 1, []⟩ := by
      unfold fetchWithRetry
      obtain ⟨f, rfl⟩ : ∃ f, retries = f + 1 :=
        ⟨retries - 1, by omega⟩
      unfold fetchAux
      rw [htr]
    simp only [loadData, hrun]
    cases body with
    | none => rfl
    | some d =>
      have hval' : (d.waitlists.isSome || d.available.isSome) = false := hval
      dsimp only
      rw [if_neg (by rw [hval']; exact Bool.false_ne_true)]

theorem C2_witness : loadData invalidJsonTransport 3 = ⟨.loadError false, 1, []⟩ :=
  C2_amended.2 invalidJsonTransport 3 none (by decide) rfl rfl

/-- **C3 (counterexample).** A parsed document carrying only the wire-schema
key `classes_with_openings` (no `waitlists`, no `available`) is rejected by
the pipeline's shape check, although the claim says the presence of that key
suffices for acceptance. -/
theorem C3_counterexample :
    docOnlyCWO.classes_with_openings.isSome = true ∧
    validateData (some docOnlyCWO) = false ∧
    (loadData cwoTransport 3).outcome = .loadError false :=
  ⟨by decide, by decide, by decide⟩

/-- **C3 (amended).** The pipeline accepts a response exactly when its body
parses to an object with a truthy `waitlists` or a truthy `available`; the
`classes_with_openings`/`camps_*` keys play no role in validation. -/
theorem C3_amended :
    ∀ transport retries body d, 1 ≤ retries → transport 1 = .ok body →
      ((loadData transport retries).outcome = .loaded d ↔
        body = some d ∧ (d.waitlists.isSome || d.available.isSome) = true) := by
  intro transport retries body d hret htr
  have hrun : fetchWithRetry transport retries = ⟨.ok body, 1, []⟩ := by
    unfold fetchWithRetry
    obtain ⟨f, rfl⟩ : ∃ f, retries = f + 1 :=
      ⟨retries - 1, by omega⟩
    unfold fetchAux
    rw [htr]
  simp only [loadData, hrun]
  cases body with
  | none =>
    constructor
    · intro h
      cases h
    · rintro ⟨h, -⟩
      cases h
  | some d' =>
    dsimp only
    by_cases hd : (d'.waitlists.isSome || d'.available.isSome) = true
    · rw [if_pos hd]
      constructor
      · intro h
        injection h with h
        subst h
        exact ⟨rfl, hd⟩
      · rintro ⟨h, -⟩
        injection h with h
        subst h
        rfl
    · rw [if_neg hd]
      constructor
      · intro h
        cases h
      · rintro ⟨h, hval⟩
        injection h with h
        subst h
        exact absurd hval hd

theorem C3_witness : (loadData okTransport 3).outcome = .loaded docAB :=
  (C3_amended okTransport 3 (some docAB) docAB (by decide) rfl).mpr ⟨rfl, by decide⟩

/-- **C4.** Waitlist view, empty query, empty filter: the rendered list is
`displayResults` over all keys; it carries one ClassResult per key of
`waitlists` (a permutation), each `waitingCount` equal to that class's
entry-array length, ordered descending by `waitingCount` with ties keeping
key insertion order (stability); and on the spec's example document the
result is B (count 2) before A (count 1). -/
theorem C4_waitlist_overview :
    (∀ doc w, doc.waitlists = some w →
      performSearchWaitlist doc "" "" = .classes (displayResults w (objectKeys w))) ∧
    (∀ w : List (String × List WaitEntry),
      ((displayResults w (objectKeys w)).map ClassResult.className).Perm (objectKeys w)) ∧
    (∀ w : List (String × List WaitEntry), ∀ p ∈ displayResults w (objectKeys w),
      p.waitingCount = ((w.lookup p.className).getD []).length) ∧
    (∀ w : List (String × List WaitEntry),
      (displayResults w (objectKeys w)).Pairwise fun p q => q.waitingCount ≤ p.waitingCount) ∧
    (∀ w : List (String × List WaitEntry), ∀ a b : String,
      [a, b].Sublist (objectKeys w) → waitCount w a = waitCount w b →
      [ClassResult.mk a (waitCount w a), ClassResult.mk b (waitCount w b)].Sublist
        (displayResults w (objectKeys w))) ∧
    performSearchWaitlist docAB "" "" = .classes [⟨"B", 2⟩, ⟨"A", 1⟩] := by
  refine ⟨?_, ?_, ?_, ?_, ?_, by decide⟩
  · intro doc w h
    simp only [performSearchWaitlist, getFilteredClasses, h]
    rfl
  · intro w
    unfold displayResults
    rw [List.map_map]
    have hcomp : (ClassResult.className ∘
        fun className => ClassResult.mk className (waitCount w className)) = id := rfl
    rw [hcomp, List.map_id]
    exact jsSortBy_perm _ _
  · intro w p hp
    unfold displayResults at hp
    rw [List.mem_map] at hp
    obtain ⟨n, -, rfl⟩ := hp
    rfl
  · intro w
    unfold displayResults
    have hpw := jsSortBy_pairwise (total_descNat fun n => waitCount w n)
      (trans_descNat fun n => waitCount w n) (objectKeys w)
    refine List.Pairwise.map _ ?_ hpw
    intro a b hab
    simpa using hab
  · intro w a b hsub htie
    unfold displayResults
    have hpair : [a, b].Sublist
        (jsSortBy (fun a b => decide (waitCount w b ≤ waitCount w a)) (objectKeys w)) :=
      jsSortBy_stable (by simp [htie]) hsub
    have hmap := List.Sublist.map
      (fun className => ClassResult.mk className (waitCount w className)) hpair
    simpa using hmap

theorem C4_witness :
    performSearchWaitlist docAB "" "" =
      .classes (displayResults (docAB.waitlists.getD []) (objectKeys (docAB.waitlists.getD []))) :=
  C4_waitlist_overview.1 docAB (docAB.waitlists.getD []) rfl

/-- **C5.** The name-matching predicate: zero tokens never match; a one-token
query matches iff the lowercased name contains the token; a multi-token query
matches iff the lowercased name contains every token, in any order; and the
spec's three concrete examples. -/
theorem C5_nameMatchesQuery :
    (∀ name query : String, splitWs query.data = [] →
      nameMatchesQuery name query = false) ∧
    (∀ name query : String, ∀ w, splitWs query.data = [w] →
      nameMatchesQuery name query = containsSub (lowerStr name.data) w) ∧
    (∀ name query : String,
      nameMatchesQuery name query = true ↔
        (splitWs query.data ≠ [] ∧
          ∀ w ∈ splitWs query.data, containsSub (lowerStr name.data) w = true)) ∧
    nameMatchesQuery "Johnson, Reagan" "reagan johnson" = true ∧
    nameMatchesQuery "Johnson, Reagan" "reagan smith" = false ∧
    nameMatchesQuery "Johnson, Reagan" "" = false := by
  refine ⟨?_, ?_, nameMatchesQuery_iff, by decide, by decide, by decide⟩
  · intro name query h
    unfold nameMatchesQuery
    rw [h]
  · intro name query w h
    unfold nameMatchesQuery
    rw [h]

theorem C5_witness :
    nameMatchesQuery "Johnson, Reagan" "reagan" =
      containsSub (lowerStr "Johnson, Reagan".data) "reagan".data :=
  C5_nameMatchesQuery.2.1 "Johnson, Reagan" "reagan" "reagan".data (by decide)

/-- **C6.** `getClassCategory` evaluates the table sorted by descending key
length, so when several category regexes match, an entry whose key length is
maximal among the matching entries is returned; and the class name
"BEGINNER / ADVANCED BEGINNER / MON" classifies as
`BEGINNER / ADVANCED BEGINNER`, never as plain `BEGINNER`. -/
theorem C6_longest_key_wins :
    (∀ className cat, getClassCategory className = some cat →
      cat ∈ CLASS_CATEGORIES ∧ matchAtoms cat.pat className.data = true ∧
      ∀ cat' ∈ CLASS_CATEGORIES, matchAtoms cat'.pat className.data = true →
        cat'.key.length ≤ cat.key.length) ∧
    (getClassCategory "BEGINNER / ADVANCED BEGINNER / MON").map Category.key =
      some "BEGINNER / ADVANCED BEGINNER" := by
  refine ⟨?_, by decide⟩
  intro className cat h
  have h' : List.find? (fun category => matchAtoms category.pat className.data)
      (jsSortBy (fun a b => decide (b.key.length ≤ a.key.length)) CLASS_CATEGORIES) =
      some cat := h
  have hpw := jsSortBy_pairwise (total_descNat fun c : Category => c.key.length)
    (trans_descNat fun c : Category => c.key.length) CLASS_CATEGORIES
  have h2 := List.find?_some h'
  refine ⟨mem_jsSortBy.mp (List.mem_of_find?_eq_some h'), h2, ?_⟩
  intro cat' hmem hmatch
  have hmem' : cat' ∈ jsSortBy
      (fun a b => decide (b.key.length ≤ a.key.length)) CLASS_CATEGORIES :=
    mem_jsSortBy.mpr hmem
  rcases find?_first_of_pairwise hpw h' cat' hmem' hmatch with rfl | hR
  · exact le_refl _
  · simpa using hR

theorem C6_witness :
    matchAtoms (Category.mk "MASTER" (litsOf "master" ++ [.wsStar] ++ litsOf "/") "Master").pat
      "MASTER / MON".data = true :=
  (C6_longest_key_wins.1 "MASTER / MON"
    ⟨"MASTER", litsOf "master" ++ [.wsStar] ++ litsOf "/", "Master"⟩ (by decide)).2.1

/-- **C7.** No delay precedes the first attempt and the backoff before attempt
k+1 is 2^(k-1)·1000 ms: for every transport and retry budget the recorded
delays are exactly 2^0·1000, 2^1·1000, … for the non-final failed attempts;
and in the spec's scenario (3 attempts, first two failing) exactly 3 attempts
are made, the delays are 1000 and 2000 ms, totalling 3000 ms, before the
third attempt succeeds. -/
theorem C7_backoff :
    (∀ transport retries,
      (fetchWithRetry transport retries).delays =
        (List.range ((fetchWithRetry transport retries).attempts - 1)).map
          fun k => 2 ^ k * 1000) ∧
    (fetchWithRetry twoFailTransport 3).attempts = 3 ∧
    (fetchWithRetry twoFailTransport 3).delays = [1000, 2000] ∧
    (fetchWithRetry twoFailTransport 3).delays.sum = 3000 ∧
    (fetchWithRetry twoFailTransport 3).result = .ok (some docAB) := by
  refine ⟨?_, by decide, by decide, by decide, by decide⟩
  intro transport retries
  have h := fetchAux_delays transport retries 1 (le_refl 1)
  simpa using h

theorem C7_witness :
    (fetchWithRetry twoFailTransport 3).delays =
      (List.range ((fetchWithRetry twoFailTransport 3).attempts - 1)).map
        fun k => 2 ^ k * 1000 :=
  C7_backoff.1 twoFailTransport 3

/-- **C8.** A category-filter key that equals no key of the fixed table is a
no-op: both filter functions return exactly what they return for the empty
filter (all waitlist keys, the whole `available` array). -/
theorem C8_unknown_filter_noop :
    ∀ doc currentFilter,
      (∀ cat ∈ CLASS_CATEGORIES, cat.key ≠ currentFilter) →
      getFilteredClasses doc currentFilter = getFilteredClasses doc "" ∧
      getFilteredAvailableClasses doc currentFilter =
        getFilteredAvailableClasses doc "" := by
  intro doc f hf
  have hfind : (CLASS_CATEGORIES.find? fun cat => cat.key == f) = none := by
    rw [List.find?_eq_none]
    intro cat hcat
    rw [Bool.not_eq_true, beq_eq_false_iff_ne]
    exact hf cat hcat
  constructor
  · unfold getFilteredClasses
    cases doc.waitlists with
    | none => rfl
    | some w =>
      dsimp only
      by_cases hemp : f = ""
      · rw [if_pos hemp, if_pos rfl]
      · rw [if_neg hemp, if_pos rfl, hfind]
  · unfold getFilteredAvailableClasses
    cases doc.available with
    | none => rfl
    | some av =>
      dsimp only
      by_cases hemp : f = ""
      · rw [if_pos hemp, if_pos rfl]
      · rw [if_neg hemp, if_pos rfl, hfind]

theorem C8_witness :
    getFilteredClasses docAB "NOPE" = getFilteredClasses docAB "" ∧
    getFilteredAvailableClasses docAB "NOPE" = getFilteredAvailableClasses docAB "" :=
  C8_unknown_filter_noop docAB "NOPE" (by decide)

/-- **C9.** Waitlist-view student search skips entries whose `name` is absent,
`null`, or empty before the matching predicate runs: every returned
StudentResult carries a non-empty name that matched the query, and deleting
all falsy-named rows from the document does not change the collected results;
the search is total over such documents by construction. -/
theorem C9_nameless_entries :
    (∀ doc f query r, performSearchWaitlist doc f query = .students r →
      ∀ s ∈ r, s.name ≠ "" ∧ nameMatchesQuery s.name query = true) ∧
    (∀ w classNames query,
      matchingStudentsIn (dropNameless w) classNames query =
        matchingStudentsIn w classNames query) := by
  constructor
  · intro doc f query r hr s hs
    unfold performSearchWaitlist at hr
    cases hw : doc.waitlists with
    | none => rw [hw] at hr; cases hr
    | some w =>
      rw [hw] at hr
      dsimp only at hr
      by_cases hq : query = ""
      · rw [if_pos hq] at hr; cases hr
      · rw [if_neg hq] at hr
        injection hr with hr
        subst hr
        have hs' : s ∈ matchingStudentsIn w (getFilteredClasses doc f) query :=
          mem_jsSortBy.mp hs
        unfold matchingStudentsIn at hs'
        rw [List.mem_flatMap] at hs'
        obtain ⟨className, -, hsmem⟩ := hs'
        rw [List.mem_filterMap] at hsmem
        obtain ⟨entry, -, hentry⟩ := hsmem
        cases hname : entry.name with
        | none => rw [hname] at hentry; cases hentry
        | some nm =>
          rw [hname] at hentry
          dsimp only at hentry
          by_cases hcond : (nm != "" && nameMatchesQuery nm query) = true
          · rw [if_pos hcond] at hentry
            injection hentry with hentry
            subst hentry
            rw [Bool.and_eq_true, bne_iff_ne] at hcond
            exact hcond
          · rw [if_neg hcond] at hentry
            cases hentry
  · intro w classNames query
    unfold matchingStudentsIn
    refine congrArg _ (funext ?_)
    intro className
    rw [lookup_dropNameless]
    cases hlk : w.lookup className with
    | none => rfl
    | some es =>
      dsimp only [Option.map_some, Option.getD_some]
      apply filterMap_filter_eq
      intro e he
      unfold entryHasName at he
      cases hn : e.name with
      | none => rfl
      | some nm =>
        rw [hn] at he
        dsimp only at he ⊢
        have hfalse : ¬ (nm != "" && nameMatchesQuery nm query) = true := by
          rw [Bool.and_eq_true]
          rintro ⟨h1, -⟩
          rw [he] at h1
          cases h1
        rw [if_neg hfalse]

theorem C9_witness :
    performSearchWaitlist docNameless "" "sue" = .students [⟨"A", 3, "Roe, Sue"⟩] ∧
    ("Roe, Sue" : String) ≠ "" ∧ nameMatchesQuery "Roe, Sue" "sue" = true :=
  ⟨by decide,
   C9_nameless_entries.1 docNameless "" "sue" [⟨"A", 3, "Roe, Sue"⟩] (by decide)
     ⟨"A", 3, "Roe, Sue"⟩ (by decide)⟩

/-- **C10.** `nameMatchesQuery` lowercases only the candidate name, never the
query tokens: a query containing a token with an uppercase ASCII letter
matches no name at all; case-insensitive behaviour therefore relies on the
caller lowercasing the query, which `performSearch` does via
`value.trim().toLowerCase()` — the normalised query never contains an
uppercase ASCII letter. -/
theorem C10_query_not_lowercased :
    (∀ name query : String,
      (∃ w ∈ splitWs query.data, ∃ c ∈ w, Char.isUpper c = true) →
      nameMatchesQuery name query = false) ∧
    (∀ raw : String, ∀ c ∈ (normalizeQuery raw).data, c.isUpper = false) := by
  constructor
  · rintro name query ⟨w, hw, c, hc, hcu⟩
    by_contra hne
    rw [Bool.not_eq_false] at hne
    rw [nameMatchesQuery_iff] at hne
    have hmem := containsSub_mem (hne.2 w hw) c hc
    rw [mem_lowerStr_not_upper hmem] at hcu
    cases hcu
  · intro raw c hc
    exact mem_lowerStr_not_upper hc

theorem C10_witness : nameMatchesQuery "Johnson" "John" = false :=
  C10_query_not_lowercased.1 "Johnson" "John" (by decide)

end WaitlistTracker
